import Mathlib

/-!
Verification of the recommendation lookup of this repository (src/app.py).

The core of the program is the function `recommend(book_name, n=5)`: it
normalizes the query, fuzzy-matches it against the lowercased pivot-table
index, resolves the matched title to a row position, sorts the similarity row
descending, drops the first element of the sorted list, takes `n` entries and
looks each one up in the book catalog, skipping entries without a catalog row.

The embedding below is a direct translation of that function.  Python
exceptions are modeled with `Except String`: an operation that can raise
returns `.error`, a `try/except` handler turns the error into the handler's
result, and an uncaught error propagates.  Pandas / numpy values are modeled
as plain lists; similarity scores (floats in the source) are modeled as
rationals; Python's stable `sorted(..., key=score, reverse=True)` is modeled
by a stable insertion sort with respect to "score is greater or equal".
String normalization (`.strip()`, `.lower()`) is modeled on the character
list of the string.  The `difflib.SequenceMatcher` ratio metric is kept
abstract as a field of the context; `get_close_matches` itself (filter by
cutoff, keep the single largest, ties toward the larger word, as
`heapq.nlargest` on (score, word) pairs behaves) is translated concretely.
-/

namespace BookRec

/-- A row of the `books` dataframe: `Book-Title` with optional
`Book-Author` and `Image-URL-M` (`row.get` defaults apply when absent). -/
structure BookRow where
  title : String
  author : Option String
  image : Option String
deriving DecidableEq

/-- The record appended to `recs` in `recommend`. -/
structure RecommendationResult where
  title : String
  author : String
  image : Option String
  score : ℚ
deriving DecidableEq

/-- The read-only backing tables: `pt.index` (TitleIndex),
`similarity_scores` (SimilarityMatrix), `books` (BookCatalog), and the
abstract sequence-matching ratio used by `difflib.get_close_matches`. -/
structure Ctx where
  titles : List String
  sim : List (List ℚ)
  books : List BookRow
  ratio : String → String → ℚ

/-- Well-formedness of the backing tables (spec §3/§6): the similarity
matrix is N×N where N is the number of titles in the index. -/
def Ctx.WF (ctx : Ctx) : Prop :=
  ctx.sim.length = ctx.titles.length ∧
    ∀ row ∈ ctx.sim, row.length = ctx.titles.length

instance (ctx : Ctx) : Decidable ctx.WF :=
  inferInstanceAs (Decidable (_ ∧ _))

/-- Python `str.lower()` (character-wise lowercasing). -/
def pyLower (s : String) : String := ⟨s.data.map Char.toLower⟩

/-- Strip leading and trailing whitespace from a character list. -/
def stripChars (l : List Char) : List Char :=
  ((l.dropWhile Char.isWhitespace).reverse.dropWhile Char.isWhitespace).reverse

/-- Python `str.strip()`. -/
def pyStrip (s : String) : String := ⟨stripChars s.data⟩

/-- Python code-point comparison of strings (used by `heapq.nlargest` when
two fuzzy candidates have exactly the same ratio). -/
def strLt : List Char → List Char → Bool
  | [], [] => false
  | [], _ :: _ => true
  | _ :: _, [] => false
  | a :: as, b :: bs =>
    if a.val < b.val then true else if b.val < a.val then false else strLt as bs

/-- The `cutoff=0.55` argument of `get_close_matches`, as the normalized
rational 11/20 (written as an explicit numerator/denominator pair so that
it evaluates by kernel reduction). -/
def cutoff : ℚ := ⟨11, 20, by decide, by decide⟩

/-- Python dict insertion: overwrite in place when the key is present,
append at the end otherwise. -/
def dictInsert (m : List (String × String)) (k v : String) :
    List (String × String) :=
  if m.any (fun p => p.1 == k) then
    m.map (fun p => if p.1 == k then (k, v) else p)
  else m ++ [(k, v)]

/-- `title_map = {title.lower(): title for title in pt.index}`. -/
def titleMap (titles : List String) : List (String × String) :=
  titles.foldl (fun m t => dictInsert m (pyLower t) t) []

/-- `title_map.keys()` in insertion order. -/
def dictKeys (m : List (String × String)) : List String := m.map (·.1)

/-- Python dict subscript lookup, as an `Option` (a missing key raises). -/
def dictGet (m : List (String × String)) (k : String) : Option String :=
  (m.find? (fun p => p.1 == k)).map (·.2)

/-- `difflib.get_close_matches(word, possibilities, n=1, cutoff=c)`:
keep the possibilities whose ratio to `word` is at least `c`, return the
single best one (`heapq.nlargest(1, [(ratio, word), ...])`, which breaks
ratio ties toward the lexicographically larger word).  The SequenceMatcher
ratio metric is the abstract `ratio` argument. -/
def getCloseMatches1 (ratio : String → String → ℚ) (word : String)
    (possibilities : List String) (c : ℚ) : List String :=
  match possibilities.filter (fun x => c ≤ ratio x word) with
  | [] => []
  | x :: xs =>
    [xs.foldl (fun best y =>
      if ratio best word < ratio y word ∨
          (ratio best word = ratio y word ∧ strLt best.data y.data) then y
      else best) x]

/-- "Score is at least as large": the order under which Python's stable
`sorted(sim_scores, key=lambda x: x[1], reverse=True)` sorts. -/
def scoreGe (a b : ℕ × ℚ) : Prop := b.2 ≤ a.2

instance : DecidableRel scoreGe := fun a b =>
  inferInstanceAs (Decidable (b.2 ≤ a.2))

instance : IsTotal (ℕ × ℚ) scoreGe := ⟨fun a b => le_total b.2 a.2⟩

instance : IsTrans (ℕ × ℚ) scoreGe := ⟨fun _ _ _ h1 h2 => le_trans h2 h1⟩

/-- Python's `sorted` is a stable sort; a stable insertion sort with
respect to `scoreGe` computes the same list. -/
def sortDesc (l : List (ℕ × ℚ)) : List (ℕ × ℚ) := List.insertionSort scoreGe l

/-- Python `enumerate`, from a starting position. -/
def enumF : ℕ → List ℚ → List (ℕ × ℚ)
  | _, [] => []
  | k, a :: l => (k, a) :: enumF (k + 1) l

/-- `sorted(list(enumerate(similarity_scores[idx])), key=..., reverse=True)`. -/
def candidatePairs (row : List ℚ) : List (ℕ × ℚ) := sortDesc (enumF 0 row)

/-- `books[books["Book-Title"] == title].drop_duplicates("Book-Title").iloc[0]`:
the first catalog row carrying the given title, if any (after filtering on
an exact title all rows share that title, so dropping duplicate titles and
taking row 0 is taking the first filtered row). -/
def findBook (books : List BookRow) (t : String) : Option BookRow :=
  books.find? (fun r => r.title == t)

/-- The dict appended to `recs`: `row.get("Book-Author", "Unknown")` and
`row.get("Image-URL-M", None)` become defaults on the optional fields;
`float(score)` is the identity on the rational model. -/
def mkResult (r : BookRow) (s : ℚ) : RecommendationResult :=
  { title := r.title, author := r.author.getD "Unknown", image := r.image,
    score := s }

/-- One iteration of the `for i, score in sim_scores` loop.
`title = pt.index[i]` sits outside the `try`, so an out-of-range position
raises (propagates); the catalog lookup sits inside the `try`, so a missing
catalog row skips the entry (`continue`). -/
def loopStep (ctx : Ctx) (acc : List RecommendationResult) (p : ℕ × ℚ) :
    Except String (List RecommendationResult) :=
  match ctx.titles[p.1]? with
  | none => .error "IndexError"
  | some t =>
    match findBook ctx.books t with
    | none => .ok acc
    | some r => .ok (acc ++ [mkResult r p.2])

/-- The whole `for` loop over the selected (position, score) pairs. -/
def runLoop (ctx : Ctx) :
    List (ℕ × ℚ) → List RecommendationResult →
      Except String (List RecommendationResult)
  | [], acc => .ok acc
  | p :: ps, acc =>
    match loopStep ctx acc p with
    | .error e => .error e
    | .ok acc2 => runLoop ctx ps acc2

/-- The pure contribution of one (position, score) pair, used to
characterize the loop when it does not raise. -/
def stepRec (ctx : Ctx) (p : ℕ × ℚ) : Option RecommendationResult :=
  (ctx.titles[p.1]?).bind fun t =>
    (findBook ctx.books t).map fun r => mkResult r p.2

/-- The front half of `recommend`, on the normalized query: build
`title_map`, call `get_close_matches`, resolve the match back to a
canonical title (`title_map[matches[0]]`, a dict subscript that would
raise `KeyError` on a missing key) and to its first row position
(`np.where(pt.index == matched_title)[0][0]`, whose `IndexError` is caught
and turned into an empty return, here `.ok none`). -/
def matchStage (ctx : Ctx) (q : String) : Except String (Option ℕ) :=
  match getCloseMatches1 ctx.ratio q (dictKeys (titleMap ctx.titles)) cutoff with
  | [] => .ok none
  | m :: _ =>
    match dictGet (titleMap ctx.titles) m with
    | none => .error "KeyError"
    | some matched =>
      match ctx.titles.findIdx? (fun t => t == matched) with
      | none => .ok none
      | some idx => .ok (some idx)

/-- `recommend(book_name, n)` from src/app.py.  `.ok` is a normal return,
`.error` a propagated Python exception.  `similarity_scores[idx]` sits
outside any `try` and raises when the matrix has no row `idx`; the slice
`[1 : n + 1]` is `drop 1` then `take n` for a natural `n`. -/
def recommendE (ctx : Ctx) (book_name : String) (n : ℕ) :
    Except String (List RecommendationResult) :=
  if book_name = "" ∨ pyStrip book_name = "" then .ok []
  else
    match matchStage ctx (pyLower (pyStrip book_name)) with
    | .error e => .error e
    | .ok none => .ok []
    | .ok (some idx) =>
      match ctx.sim[idx]? with
      | none => .error "IndexError"
      | some row => runLoop ctx (((candidatePairs row).drop 1).take n) []

/-- `recommend` with Python `None` for the query: `not book_name` is true
for `None`, so the call returns `[]` before touching the string. -/
def recommendOpt (ctx : Ctx) (book_name : Option String) (n : ℕ) :
    Except String (List RecommendationResult) :=
  match book_name with
  | none => .ok []
  | some s => recommendE ctx s n

/-- The order C2 claims for the sorted candidate pairs: score strictly
descending, or equal scores with strictly ascending original position. -/
def lexR (a b : ℕ × ℚ) : Prop := b.2 < a.2 ∨ (a.2 = b.2 ∧ a.1 < b.1)

/-- An exact-equality ratio, a legitimate instantiation of the abstract
SequenceMatcher metric, used for concrete evaluations. -/
def exactRatio (x y : String) : ℚ := if x = y then 1 else 0

/-- A small concrete context used for witnesses. -/
def wCtx : Ctx :=
  { titles := ["Alpha", "Beta", "Gamma"]
  , sim := [[3, 2, 1], [2, 3, 1], [1, 1, 3]]
  , books := [⟨"Alpha", some "A. Author", some "img-a"⟩,
              ⟨"Beta", some "B. Author", none⟩,
              ⟨"Gamma", none, none⟩]
  , ratio := exactRatio }

/-- A context on which the self entry does not sort first: the similarity
row of "Alpha" scores "Beta" above "Alpha" itself. -/
def cCtx : Ctx :=
  { titles := ["Alpha", "Beta"]
  , sim := [[0, 1], [1, 0]]
  , books := [⟨"Alpha", some "A. Author", none⟩,
              ⟨"Beta", some "B. Author", none⟩]
  , ratio := exactRatio }

/-! ### Facts about `enumF` -/

theorem enumF_length (k : ℕ) (l : List ℚ) : (enumF k l).length = l.length := by
  induction l generalizing k with
  | nil => rfl
  | cons a l ih => simp [enumF, ih]

theorem mem_enumF {k : ℕ} {l : List ℚ} {p : ℕ × ℚ} (h : p ∈ enumF k l) :
    k ≤ p.1 ∧ l[p.1 - k]? = some p.2 := by
  induction l generalizing k with
  | nil => simp [enumF] at h
  | cons a l ih =>
    simp only [enumF, List.mem_cons] at h
    rcases h with h | h
    · rw [h]; simp
    · obtain ⟨h1, h2⟩ := ih h
      refine ⟨by omega, ?_⟩
      have he : p.1 - k = (p.1 - (k + 1)) + 1 := by omega
      rw [he, List.getElem?_cons_succ]
      exact h2

theorem enumF_mem_of {l : List ℚ} {s : ℚ} (k j : ℕ) (h : l[j]? = some s) :
    (k + j, s) ∈ enumF k l := by
  induction l generalizing k j with
  | nil => simp at h
  | cons a l ih =>
    cases j with
    | zero =>
      simp only [List.getElem?_cons_zero, Option.some.injEq] at h
      rw [h]
      simp [enumF]
    | succ j =>
      rw [List.getElem?_cons_succ] at h
      have he : k + (j + 1) = (k + 1) + j := by omega
      rw [he]
      exact List.mem_cons_of_mem _ (ih (k + 1) j h)

theorem enumF_pairwise (k : ℕ) (l : List ℚ) :
    (enumF k l).Pairwise (fun a b => a.1 < b.1) := by
  induction l generalizing k with
  | nil => exact List.Pairwise.nil
  | cons a l ih =>
    refine List.Pairwise.cons ?_ (ih (k + 1))
    intro p hp
    have h1 := (mem_enumF hp).1
    show k < p.1
    omega

theorem enumF_nodup (k : ℕ) (l : List ℚ) : (enumF k l).Nodup :=
  (enumF_pairwise k l).imp fun {a b} hlt => by
    intro he
    rw [he] at hlt
    exact lt_irrefl _ hlt

theorem mem_enumF_zero {l : List ℚ} {p : ℕ × ℚ} (h : p ∈ enumF 0 l) :
    l[p.1]? = some p.2 := by
  have h2 := (mem_enumF h).2
  simpa using h2

theorem mem_enumF_lt {l : List ℚ} {p : ℕ × ℚ} (h : p ∈ enumF 0 l) :
    p.1 < l.length := by
  have h2 := mem_enumF_zero h
  by_contra hge
  rw [List.getElem?_eq_none (by omega)] at h2
  exact Option.noConfusion h2

/-! ### Facts about `sortDesc` and `candidatePairs` -/

theorem sortDesc_perm (l : List (ℕ × ℚ)) : (sortDesc l).Perm l :=
  List.perm_insertionSort scoreGe l

theorem sortDesc_sorted (l : List (ℕ × ℚ)) : (sortDesc l).Pairwise scoreGe :=
  List.sorted_insertionSort scoreGe l

theorem orderedInsert_pairwise_lex (a : ℕ × ℚ) (l : List (ℕ × ℚ))
    (hl : l.Pairwise lexR) (ha : ∀ b ∈ l, a.1 < b.1) :
    (List.orderedInsert scoreGe a l).Pairwise lexR := by
  induction l with
  | nil => simp [List.orderedInsert, lexR]
  | cons b l ih =>
    rw [List.pairwise_cons] at hl
    obtain ⟨hb, hl'⟩ := hl
    by_cases h : scoreGe a b
    · rw [List.orderedInsert, if_pos h]
      refine List.Pairwise.cons ?_ (List.Pairwise.cons hb hl')
      intro x hx
      rcases List.mem_cons.mp hx with rfl | hx
      · rcases lt_or_eq_of_le h with hlt | heq
        · exact Or.inl hlt
        · exact Or.inr ⟨heq.symm, ha _ (List.mem_cons_self _ _)⟩
      · rcases hb x hx with hlt | ⟨heq, _⟩
        · exact Or.inl (lt_of_lt_of_le hlt h)
        · have hx2 : x.2 ≤ a.2 := heq ▸ h
          rcases lt_or_eq_of_le hx2 with h2 | h2
          · exact Or.inl h2
          · exact Or.inr ⟨h2.symm, ha _ (List.mem_cons_of_mem _ hx)⟩
    · rw [List.orderedInsert, if_neg h]
      have hab : a.2 < b.2 := lt_of_not_le h
      refine List.Pairwise.cons ?_
        (ih hl' (fun x hx => ha _ (List.mem_cons_of_mem _ hx)))
      intro x hx
      rcases (List.mem_orderedInsert scoreGe).mp hx with rfl | hx
      · exact Or.inl hab
      · exact hb x hx

theorem sortDesc_pairwise_lex (l : List (ℕ × ℚ))
    (h : l.Pairwise (fun a b => a.1 < b.1)) : (sortDesc l).Pairwise lexR := by
  induction l with
  | nil => exact List.Pairwise.nil
  | cons a l ih =>
    rw [List.pairwise_cons] at h
    obtain ⟨ha, hl⟩ := h
    rw [show sortDesc (a :: l) = List.orderedInsert scoreGe a (sortDesc l)
       from rfl]
    refine orderedInsert_pairwise_lex a (sortDesc l) (ih hl) ?_
    intro b hb
    exact ha b ((sortDesc_perm l).mem_iff.mp hb)

theorem candidatePairs_pairwise_lex (row : List ℚ) :
    (candidatePairs row).Pairwise lexR :=
  sortDesc_pairwise_lex _ (enumF_pairwise 0 row)

theorem sortDesc_eq_cons_of_max {l : List (ℕ × ℚ)} {x : ℕ × ℚ}
    (hx : x ∈ l) (hmax : ∀ y ∈ l, y ≠ x → y.2 < x.2) :
    ∃ t, sortDesc l = x :: t := by
  have hperm := sortDesc_perm l
  have hsort := sortDesc_sorted l
  cases hd : sortDesc l with
  | nil =>
    rw [hd] at hperm
    exact absurd (hperm.symm.mem_iff.mp hx) (List.not_mem_nil x)
  | cons h t =>
    refine ⟨t, ?_⟩
    congr 1
    rw [hd] at hperm hsort
    by_contra hhx
    have hhl : h ∈ l := hperm.mem_iff.mp (List.mem_cons_self h t)
    have h1 : h.2 < x.2 := hmax h hhl hhx
    have hx' : x ∈ h :: t := hperm.mem_iff.mpr hx
    rcases List.mem_cons.mp hx' with he | hxt
    · exact hhx he.symm
    · have h2 : x.2 ≤ h.2 := (List.pairwise_cons.mp hsort).1 x hxt
      exact absurd (lt_of_le_of_lt h2 h1) (lt_irrefl _)

/-- Every pair kept by the slice `[1 : n + 1]` comes from the enumerated
similarity row. -/
theorem taken_mem {row : List ℚ} {n : ℕ} {p : ℕ × ℚ}
    (hp : p ∈ ((candidatePairs row).drop 1).take n) : p ∈ enumF 0 row := by
  have h1 : p ∈ candidatePairs row :=
    ((List.take_sublist _ _).trans (List.drop_sublist _ _)).mem hp
  exact (sortDesc_perm _).mem_iff.mp h1

/-! ### Facts about the result loop -/

theorem stepRec_some {ctx : Ctx} {p : ℕ × ℚ} {r : RecommendationResult}
    (h : stepRec ctx p = some r) :
    ctx.titles[p.1]? = some r.title ∧ r.score = p.2 := by
  unfold stepRec at h
  cases ht : ctx.titles[p.1]? with
  | none => rw [ht] at h; simp at h
  | some t =>
    rw [ht] at h
    simp only [Option.bind] at h
    cases hb : findBook ctx.books t with
    | none => rw [hb] at h; simp at h
    | some br =>
      rw [hb] at h
      simp only [Option.map_some', Option.some.injEq] at h
      have hbt : br.title = t := by
        have hf := List.find?_some hb
        simpa using hf
      rw [← h]
      simp [mkResult, hbt, ht]

theorem runLoop_eq_ok (ctx : Ctx) :
    ∀ (ps : List (ℕ × ℚ)) (acc : List RecommendationResult),
      (∀ p ∈ ps, p.1 < ctx.titles.length) →
      runLoop ctx ps acc = .ok (acc ++ ps.filterMap (stepRec ctx))
  | [], acc, _ => by simp [runLoop]
  | p :: ps, acc, h => by
    have hp := h p (List.mem_cons_self _ _)
    have htl := fun q hq => h q (List.mem_cons_of_mem _ hq)
    have ht : ctx.titles[p.1]? = some ctx.titles[p.1] :=
      List.getElem?_eq_getElem hp
    cases hb : findBook ctx.books ctx.titles[p.1] with
    | none =>
      simp only [runLoop, loopStep, ht, hb]
      rw [runLoop_eq_ok ctx ps acc htl]
      simp [List.filterMap_cons, stepRec, ht, hb]
    | some r =>
      simp only [runLoop, loopStep, ht, hb]
      rw [runLoop_eq_ok ctx ps (acc ++ [mkResult r p.2]) htl]
      simp [List.filterMap_cons, stepRec, ht, hb]

theorem runLoop_ok_char (ctx : Ctx) :
    ∀ (ps : List (ℕ × ℚ)) (acc out : List RecommendationResult),
      runLoop ctx ps acc = .ok out → out = acc ++ ps.filterMap (stepRec ctx)
  | [], acc, out, h => by
    simp only [runLoop, Except.ok.injEq] at h
    simp [← h]
  | p :: ps, acc, out, h => by
    cases ht : ctx.titles[p.1]? with
    | none =>
      simp only [runLoop, loopStep, ht] at h
      exact absurd h (by simp)
    | some t =>
      cases hb : findBook ctx.books t with
      | none =>
        simp only [runLoop, loopStep, ht, hb] at h
        have := runLoop_ok_char ctx ps acc out h
        simp [this, List.filterMap_cons, stepRec, ht, hb]
      | some r =>
        simp only [runLoop, loopStep, ht, hb] at h
        have := runLoop_ok_char ctx ps (acc ++ [mkResult r p.2]) out h
        simp [this, List.filterMap_cons, stepRec, ht, hb]

/-! ### Facts about the title dictionary -/

theorem dictInsert_mem {m : List (String × String)} {k v : String}
    {p : String × String} (h : p ∈ dictInsert m k v) : p ∈ m ∨ p = (k, v) := by
  unfold dictInsert at h
  split at h
  · obtain ⟨q, hq, he⟩ := List.mem_map.mp h
    by_cases hk : q.1 == k
    · rw [if_pos hk] at he
      exact Or.inr he.symm
    · rw [if_neg hk] at he
      rw [← he]
      exact Or.inl hq
  · rcases List.mem_append.mp h with h | h
    · exact Or.inl h
    · right; simpa using h

theorem foldl_dictInsert_mem :
    ∀ (ts : List String) (m : List (String × String)) (p : String × String),
      p ∈ ts.foldl (fun m t => dictInsert m (pyLower t) t) m →
      p ∈ m ∨ p.2 ∈ ts
  | [], _, _, h => Or.inl h
  | t :: ts, m, p, h => by
    rcases foldl_dictInsert_mem ts _ p h with h' | h'
    · rcases dictInsert_mem h' with h'' | h''
      · exact Or.inl h''
      · right
        rw [h'']
        exact List.mem_cons_self _ _
    · exact Or.inr (List.mem_cons_of_mem _ h')

theorem titleMap_mem {titles : List String} {p : String × String}
    (h : p ∈ titleMap titles) : p.2 ∈ titles := by
  rcases foldl_dictInsert_mem titles [] p h with h' | h'
  · exact absurd h' (List.not_mem_nil p)
  · exact h'

theorem dictGet_some_of_mem_keys {m : List (String × String)} {k : String}
    (h : k ∈ dictKeys m) : ∃ v, dictGet m k = some v := by
  obtain ⟨p, hp, he⟩ := List.mem_map.mp h
  unfold dictGet
  cases hf : m.find? (fun p => p.1 == k) with
  | none =>
    have hn := List.find?_eq_none.mp hf p hp
    rw [he] at hn
    simp at hn
  | some q => exact ⟨q.2, by simp⟩

theorem dictGet_mem {m : List (String × String)} {k v : String}
    (h : dictGet m k = some v) : ∃ p ∈ m, p.2 = v := by
  unfold dictGet at h
  cases hf : m.find? (fun p => p.1 == k) with
  | none => rw [hf] at h; simp at h
  | some q =>
    rw [hf] at h
    simp only [Option.map_some', Option.some.injEq] at h
    exact ⟨q, List.mem_of_find?_eq_some hf, h⟩

/-! ### Facts about `getCloseMatches1` -/

theorem foldl_pick_mem {α : Type} (f : α → α → α)
    (hf : ∀ a b, f a b = a ∨ f a b = b) :
    ∀ (ys : List α) (x : α), ys.foldl f x ∈ x :: ys
  | [], _ => by simp
  | y :: ys, x => by
    have h := foldl_pick_mem f hf ys (f x y)
    simp only [List.foldl_cons]
    rcases List.mem_cons.mp h with h | h
    · rw [h]
      rcases hf x y with he | he <;> rw [he] <;> simp
    · exact List.mem_cons_of_mem _ (List.mem_cons_of_mem _ h)

theorem getCloseMatches1_length (r : String → String → ℚ) (w : String)
    (ps : List String) (c : ℚ) : (getCloseMatches1 r w ps c).length ≤ 1 := by
  unfold getCloseMatches1
  split <;> simp

theorem getCloseMatches1_sound {r : String → String → ℚ} {w : String}
    {ps : List String} {c : ℚ} {m : String} {ms : List String}
    (h : getCloseMatches1 r w ps c = m :: ms) : m ∈ ps ∧ c ≤ r m w := by
  unfold getCloseMatches1 at h
  split at h
  · exact absurd h (by simp)
  case h_2 x xs hfil =>
    have hm : m = xs.foldl (fun best y =>
        if r best w < r y w ∨ (r best w = r y w ∧ strLt best.data y.data)
        then y else best) x :=
      (List.cons.inj h.symm).1
    have hpick : ∀ (a b : String),
        (if r a w < r b w ∨ (r a w = r b w ∧ strLt a.data b.data)
         then b else a) = a ∨
        (if r a w < r b w ∨ (r a w = r b w ∧ strLt a.data b.data)
         then b else a) = b := by
      intro a b
      split
      · exact Or.inr rfl
      · exact Or.inl rfl
    have hmem := foldl_pick_mem _ hpick xs x
    rw [← hm] at hmem
    have hmf : m ∈ ps.filter (fun x => decide (c ≤ r x w)) := by
      rw [hfil]
      exact hmem
    have := List.mem_filter.mp hmf
    exact ⟨this.1, by simpa using this.2⟩

theorem getCloseMatches1_eq_nil {r : String → String → ℚ} {w : String}
    {ps : List String} {c : ℚ}
    (h : ∀ x ∈ ps, r x w < c) : getCloseMatches1 r w ps c = [] := by
  unfold getCloseMatches1
  have hfil : ps.filter (fun x => decide (c ≤ r x w)) = [] := by
    rw [List.filter_eq_nil_iff]
    intro x hx
    simpa using not_le.mpr (h x hx)
  rw [hfil]

/-! ### Facts about `matchStage` and `recommendE` -/

theorem findIdx?_beq_some_of_mem {titles : List String} {v : String}
    (hv : v ∈ titles) : ∃ i, titles.findIdx? (fun t => t == v) = some i := by
  cases hf : titles.findIdx? (fun t => t == v) with
  | none =>
    have hn := List.findIdx?_eq_none_iff.mp hf v hv
    simp at hn
  | some i => exact ⟨i, rfl⟩

/-- The matched lowercased title always comes from the keys of `title_map`,
so the dict lookup and the position resolution both succeed. -/
theorem matchStage_match_resolves {ctx : Ctx} {q m : String} {ms : List String}
    (hg : getCloseMatches1 ctx.ratio q (dictKeys (titleMap ctx.titles)) cutoff
        = m :: ms) :
    ∃ idx, matchStage ctx q = .ok (some idx) := by
  have hm := (getCloseMatches1_sound hg).1
  obtain ⟨v, hv⟩ := dictGet_some_of_mem_keys hm
  obtain ⟨p, hpm, hpv⟩ := dictGet_mem hv
  have hvt : v ∈ ctx.titles := hpv ▸ titleMap_mem hpm
  obtain ⟨i, hf⟩ := findIdx?_beq_some_of_mem hvt
  refine ⟨i, ?_⟩
  unfold matchStage
  simp only [hg, hv, hf]

theorem matchStage_ok (ctx : Ctx) (q : String) : ∃ o, matchStage ctx q = .ok o := by
  cases hg : getCloseMatches1 ctx.ratio q (dictKeys (titleMap ctx.titles)) cutoff
    with
  | nil => exact ⟨none, by unfold matchStage; simp only [hg]⟩
  | cons m ms =>
    obtain ⟨idx, h⟩ := matchStage_match_resolves hg
    exact ⟨some idx, h⟩

theorem matchStage_some_lt {ctx : Ctx} {q : String} {idx : ℕ}
    (h : matchStage ctx q = .ok (some idx)) : idx < ctx.titles.length := by
  unfold matchStage at h
  split at h
  · simp at h
  · split at h
    · simp at h
    · split at h
      · simp at h
      next i hf =>
        simp only [Except.ok.injEq, Option.some.injEq] at h
        rw [← h]
        exact (List.findIdx?_eq_some_iff_findIdx_eq.mp hf).1

/-- The central characterization of a successful `recommend` call on
well-formed tables: either one of the early-return paths fires and the
result is empty, or the query resolves to a row and the result is the
catalog image of the pairs kept by the slice `[1 : n + 1]` of the sorted
similarity row. -/
theorem recommendE_ok_char (ctx : Ctx) (q : String) (n : ℕ) (hwf : ctx.WF) :
    recommendE ctx q n = .ok [] ∨
    ∃ idx row, matchStage ctx (pyLower (pyStrip q)) = .ok (some idx) ∧
      ctx.sim[idx]? = some row ∧ row.length = ctx.titles.length ∧
      recommendE ctx q n =
        .ok ((((candidatePairs row).drop 1).take n).filterMap (stepRec ctx)) := by
  by_cases h0 : q = "" ∨ pyStrip q = ""
  · left
    unfold recommendE
    rw [if_pos h0]
  · obtain ⟨o, ho⟩ := matchStage_ok ctx (pyLower (pyStrip q))
    cases o with
    | none =>
      left
      unfold recommendE
      rw [if_neg h0]
      simp only [ho]
    | some idx =>
      right
      have hidx : idx < ctx.titles.length := matchStage_some_lt ho
      have hidx2 : idx < ctx.sim.length := by rw [hwf.1]; exact hidx
      have hrow : ctx.sim[idx]? = some ctx.sim[idx] :=
        List.getElem?_eq_getElem hidx2
      have hlen : ctx.sim[idx].length = ctx.titles.length :=
        hwf.2 _ (List.getElem_mem hidx2)
      refine ⟨idx, ctx.sim[idx], ho, hrow, hlen, ?_⟩
      unfold recommendE
      rw [if_neg h0]
      simp only [ho, hrow]
      have hb : ∀ p ∈ ((candidatePairs ctx.sim[idx]).drop 1).take n,
          p.1 < ctx.titles.length := by
        intro p hp
        have hlt := mem_enumF_lt (taken_mem hp)
        rw [hlen] at hlt
        exact hlt
      rw [runLoop_eq_ok ctx _ [] hb]
      simp

/-! ### Claim theorems -/

/-- C3: for every input query and every n, `recommend` raises no exception
on well-formed backing tables: the call always returns normally (every
failure path yields an empty sequence or a skipped entry, never a
propagated error). -/
theorem C3_never_raises (ctx : Ctx) (q : String) (n : ℕ) (hwf : ctx.WF) :
    ∃ l, recommendE ctx q n = .ok l := by
  rcases recommendE_ok_char ctx q n hwf with h | ⟨_, _, _, _, _, h⟩
  · exact ⟨[], h⟩
  · exact ⟨_, h⟩

/-- C3 witness at a concrete context and query. -/
theorem C3_never_raises_witness :
    ∃ l, recommendE wCtx "Alpha" 5 = .ok l :=
  C3_never_raises wCtx "Alpha" 5 (by decide)

/-- C4: the result of `recommend` has length at most `n`; for `n = 0` it
is empty; and the loop silently skips entries without a catalog record,
appending the later hits instead of aborting (the loop result is exactly
the `filterMap` of the per-entry lookups over the whole selected list). -/
theorem C4_result_bounds (ctx : Ctx) (q : String) (n : ℕ)
    (l : List RecommendationResult) (hwf : ctx.WF)
    (hok : recommendE ctx q n = .ok l) :
    l.length ≤ n ∧ (n = 0 → l = []) ∧
      ∀ ps acc out, runLoop ctx ps acc = .ok out →
        out = acc ++ ps.filterMap (stepRec ctx) := by
  rcases recommendE_ok_char ctx q n hwf with hch | ⟨idx, row, hms, hrow, hlen, hch⟩
  · rw [hok] at hch
    simp only [Except.ok.injEq] at hch
    subst hch
    exact ⟨by simp, fun _ => rfl,
      fun ps acc out h => runLoop_ok_char ctx ps acc out h⟩
  · rw [hok] at hch
    simp only [Except.ok.injEq] at hch
    subst hch
    refine ⟨?_, ?_, fun ps acc out h => runLoop_ok_char ctx ps acc out h⟩
    · exact le_trans (List.length_filterMap_le _ _) (List.length_take_le _ _)
    · intro hn
      rw [hn]
      simp

/-- C4 witness at a concrete context, query and n. -/
theorem C4_result_bounds_witness :
    [(⟨"Beta", "B. Author", none, 2⟩ : RecommendationResult),
     ⟨"Gamma", "Unknown", none, 1⟩].length ≤ 2 ∧
      ((2 : ℕ) = 0 →
        [(⟨"Beta", "B. Author", none, 2⟩ : RecommendationResult),
         ⟨"Gamma", "Unknown", none, 1⟩] = []) ∧
      ∀ ps acc out, runLoop wCtx ps acc = .ok out →
        out = acc ++ ps.filterMap (stepRec wCtx) :=
  C4_result_bounds wCtx "Alpha" 2 _ (by decide) (by rfl)

/-- C6: an empty or whitespace-only query (and Python `None`) yields an
empty sequence without error, for every context and every n. -/
theorem C6_blank_query (ctx : Ctx) (q : String) (n : ℕ)
    (h : q = "" ∨ pyStrip q = "") :
    recommendE ctx q n = .ok [] ∧ recommendOpt ctx none n = .ok [] :=
  ⟨by unfold recommendE; rw [if_pos h], rfl⟩

/-- C6 witness at a whitespace-only query. -/
theorem C6_blank_query_witness :
    ("   " = "" ∨ pyStrip "   " = "") ∧
      (recommendE wCtx "   " 7 = .ok [] ∧ recommendOpt wCtx none 7 = .ok []) :=
  ⟨Or.inr (by decide), C6_blank_query wCtx "   " 7 (Or.inr (by decide))⟩

/-- C8: `recommend` is deterministic: two calls with the same query and n
against the same backing tables return the same value. -/
theorem C8_deterministic (ctx : Ctx) (q : String) (n : ℕ)
    (r1 r2 : Except String (List RecommendationResult))
    (h1 : recommendE ctx q n = r1) (h2 : recommendE ctx q n = r2) :
    r1 = r2 := by
  rw [← h1, ← h2]

/-- C8 witness at a concrete repeated call. -/
theorem C8_deterministic_witness :
    recommendE wCtx "Alpha" 5 = recommendE wCtx "Alpha" 5 :=
  C8_deterministic wCtx "Alpha" 5 _ _ rfl rfl

/-- C10: the result never has more than N - 1 entries, where N is the
number of titles in the index; any requested n, however large, is safe. -/
theorem C10_at_most_n_minus_one (ctx : Ctx) (q : String) (n : ℕ)
    (l : List RecommendationResult) (hwf : ctx.WF)
    (hok : recommendE ctx q n = .ok l) :
    l.length ≤ ctx.titles.length - 1 ∧
      ∀ m : ℕ, ∃ l2, recommendE ctx q m = .ok l2 := by
  refine ⟨?_, fun m => ?_⟩
  case refine_2 =>
    rcases recommendE_ok_char ctx q m hwf with h | ⟨_, _, _, _, _, h⟩
    · exact ⟨[], h⟩
    · exact ⟨_, h⟩
  rcases recommendE_ok_char ctx q n hwf with hch | ⟨idx, row, hms, hrow, hlen, hch⟩
  · rw [hok] at hch
    simp only [Except.ok.injEq] at hch
    subst hch
    simp
  · rw [hok] at hch
    simp only [Except.ok.injEq] at hch
    subst hch
    have h1 : (((candidatePairs row).drop 1).take n).length ≤
        ((candidatePairs row).drop 1).length := by
      rw [List.length_take]
      exact min_le_right _ _
    have h2 : ((candidatePairs row).drop 1).length = row.length - 1 := by
      rw [List.length_drop]
      congr 1
      rw [show candidatePairs row = sortDesc (enumF 0 row) from rfl,
          (sortDesc_perm (enumF 0 row)).length_eq, enumF_length]
    have h3 := le_trans (List.length_filterMap_le (stepRec ctx) _)
      (le_trans h1 (le_of_eq h2))
    rw [hlen] at h3
    exact h3

/-- C10 witness: requesting far more than N results is safe and bounded. -/
theorem C10_at_most_n_minus_one_witness :
    [(⟨"Beta", "B. Author", none, 2⟩ : RecommendationResult),
     ⟨"Gamma", "Unknown", none, 1⟩].length ≤ wCtx.titles.length - 1 ∧
      ∀ m : ℕ, ∃ l2, recommendE wCtx "Alpha" m = .ok l2 :=
  C10_at_most_n_minus_one wCtx "Alpha" 99 _ (by decide) (by rfl)

/-- C5: the fuzzy-match step requests at most one candidate, and when
every title's ratio against the normalized query is below the 0.55
cutoff, `recommend` returns an empty sequence. -/
theorem C5_cutoff_miss (ctx : Ctx) (q : String) (n : ℕ)
    (h : ∀ x ∈ dictKeys (titleMap ctx.titles),
      ctx.ratio x (pyLower (pyStrip q)) < cutoff) :
    (∀ (r : String → String → ℚ) (w : String) (ps : List String) (c : ℚ),
        (getCloseMatches1 r w ps c).length ≤ 1) ∧
      recommendE ctx q n = .ok [] := by
  refine ⟨getCloseMatches1_length, ?_⟩
  unfold recommendE
  by_cases h0 : q = "" ∨ pyStrip q = ""
  · rw [if_pos h0]
  · rw [if_neg h0]
    have hms : matchStage ctx (pyLower (pyStrip q)) = .ok none := by
      unfold matchStage
      simp only [getCloseMatches1_eq_nil h]
    simp only [hms]

/-- C5 witness at a query far from every title. -/
theorem C5_cutoff_miss_witness :
    (∀ x ∈ dictKeys (titleMap wCtx.titles),
        wCtx.ratio x (pyLower (pyStrip "zzz")) < cutoff) ∧
      ((∀ (r : String → String → ℚ) (w : String) (ps : List String) (c : ℚ),
          (getCloseMatches1 r w ps c).length ≤ 1) ∧
        recommendE wCtx "zzz" 5 = .ok []) :=
  ⟨by decide, C5_cutoff_miss wCtx "zzz" 5 (by decide)⟩

/-- C7: every returned result carries exactly the similarity-matrix value
at (matched row, result position) as its score, with the result title
being the title at that position; no rounding or transformation occurs. -/
theorem C7_score_from_matrix (ctx : Ctx) (q : String) (n : ℕ)
    (l : List RecommendationResult) (hwf : ctx.WF)
    (hok : recommendE ctx q n = .ok l) :
    ∀ r ∈ l, ∃ (idx : ℕ) (row : List ℚ) (i : ℕ),
      matchStage ctx (pyLower (pyStrip q)) = .ok (some idx) ∧
      ctx.sim[idx]? = some row ∧
      ctx.titles[i]? = some r.title ∧ row[i]? = some r.score := by
  intro r hr
  rcases recommendE_ok_char ctx q n hwf with hch | ⟨idx, row, hms, hrow, hlen, hch⟩
  · rw [hok] at hch
    simp only [Except.ok.injEq] at hch
    subst hch
    exact absurd hr (List.not_mem_nil r)
  · rw [hok] at hch
    simp only [Except.ok.injEq] at hch
    subst hch
    obtain ⟨p, hp, hs⟩ := List.mem_filterMap.mp hr
    obtain ⟨ht, hscore⟩ := stepRec_some hs
    refine ⟨idx, row, p.1, hms, hrow, ht, ?_⟩
    rw [hscore]
    exact mem_enumF_zero (taken_mem hp)

/-- C7 witness at a concrete call. -/
theorem C7_score_from_matrix_witness :
    ∃ (idx : ℕ) (row : List ℚ) (i : ℕ),
      matchStage wCtx (pyLower (pyStrip "Alpha")) = .ok (some idx) ∧
      wCtx.sim[idx]? = some row ∧
      wCtx.titles[i]? =
        some (⟨"Beta", "B. Author", none, 2⟩ : RecommendationResult).title ∧
      row[i]? =
        some (⟨"Beta", "B. Author", none, 2⟩ : RecommendationResult).score :=
  C7_score_from_matrix wCtx "Alpha" 5
    [⟨"Beta", "B. Author", none, 2⟩, ⟨"Gamma", "Unknown", none, 1⟩]
    (by decide) (by rfl) ⟨"Beta", "B. Author", none, 2⟩ (by simp)

/-- C9: whenever the fuzzy match produces a candidate, the dict lookup and
the position resolution always succeed — the matched title comes from the
lowercase-to-canonical map built over the TitleIndex itself — so the
empty-return guarded by the caught `IndexError` never fires and no error
escapes the front half. -/
theorem C9_resolution_total (ctx : Ctx) (q : String)
    (hnd : ctx.titles.Nodup) :
    (∀ m ms,
        getCloseMatches1 ctx.ratio q (dictKeys (titleMap ctx.titles)) cutoff
          = m :: ms →
        ∃ idx, matchStage ctx q = .ok (some idx)) ∧
      ∀ e, matchStage ctx q ≠ .error e := by
  refine ⟨fun m ms hg => matchStage_match_resolves hg, ?_⟩
  intro e he
  obtain ⟨o, ho⟩ := matchStage_ok ctx q
  rw [ho] at he
  exact Except.noConfusion he

/-- C9 witness at a concrete context and query. -/
theorem C9_resolution_total_witness :
    wCtx.titles.Nodup ∧
      ((∀ m ms,
          getCloseMatches1 wCtx.ratio "alpha"
            (dictKeys (titleMap wCtx.titles)) cutoff = m :: ms →
          ∃ idx, matchStage wCtx "alpha" = .ok (some idx)) ∧
        ∀ e, matchStage wCtx "alpha" ≠ .error e) :=
  ⟨by decide, C9_resolution_total wCtx "alpha" (by decide)⟩

/-- C2: the sorted candidate pairs are ordered by score descending with
ties in ascending original-position order (the stable tie-break), and the
returned results preserve that order (their scores are descending). -/
theorem C2_sorted_results (ctx : Ctx) (q : String) (n : ℕ)
    (l : List RecommendationResult) (hwf : ctx.WF)
    (hok : recommendE ctx q n = .ok l) :
    (∀ row : List ℚ, (candidatePairs row).Pairwise lexR) ∧
      l.Pairwise (fun a b => b.score ≤ a.score) := by
  refine ⟨candidatePairs_pairwise_lex, ?_⟩
  rcases recommendE_ok_char ctx q n hwf with hch | ⟨idx, row, hms, hrow, hlen, hch⟩
  · rw [hok] at hch
    simp only [Except.ok.injEq] at hch
    subst hch
    exact List.Pairwise.nil
  · rw [hok] at hch
    simp only [Except.ok.injEq] at hch
    subst hch
    rw [List.pairwise_filterMap]
    have hsub : List.Sublist (((candidatePairs row).drop 1).take n)
        (candidatePairs row) :=
      (List.take_sublist _ _).trans (List.drop_sublist _ _)
    have htaken := List.Pairwise.sublist hsub (candidatePairs_pairwise_lex row)
    refine htaken.imp ?_
    intro a b hab r hr s hs
    have h1 := (stepRec_some (Option.mem_def.mp hr)).2
    have h2 := (stepRec_some (Option.mem_def.mp hs)).2
    rw [h1, h2]
    rcases hab with hlt | ⟨heq, _⟩
    · exact le_of_lt hlt
    · exact le_of_eq heq.symm

/-- C2 witness at a concrete call. -/
theorem C2_sorted_results_witness :
    (∀ row : List ℚ, (candidatePairs row).Pairwise lexR) ∧
      [(⟨"Beta", "B. Author", none, 2⟩ : RecommendationResult),
       ⟨"Gamma", "Unknown", none, 1⟩].Pairwise (fun a b => b.score ≤ a.score) :=
  C2_sorted_results wCtx "Alpha" 5 _ (by decide) (by rfl)

/-- C1 counterexample: the code removes the first element of the sorted
list (`[1 : n + 1]`), not the entry at the matched position.  On `cCtx`
the query "Alpha" resolves to position 0, whose row scores "Beta" (1)
above "Alpha" itself (0); the sort puts "Beta" first, the slice drops it,
and the returned sequence contains the matched title "Alpha" itself. -/
theorem C1_counterexample :
    cCtx.WF ∧ cCtx.titles.Nodup ∧
      matchStage cCtx (pyLower (pyStrip "Alpha")) = .ok (some 0) ∧
      cCtx.titles[0]? = some "Alpha" ∧
      recommendE cCtx "Alpha" 5 =
        .ok [{ title := "Alpha", author := "A. Author", image := none,
               score := 0 }] :=
  ⟨by decide, by decide, by rfl, by rfl, by rfl⟩

/-- C1 (amended): `recommend` drops exactly the first element of the
score-descending sorted candidate list; when the self-similarity score at
the matched position is strictly greater than every other entry of its
row and titles are unique, that first element is the self entry, so the
returned sequence never contains the matched title. -/
theorem C1_self_excluded_of_strict_max
    (ctx : Ctx) (q : String) (n : ℕ) (l : List RecommendationResult)
    (idx : ℕ) (row : List ℚ) (selfS : ℚ) (mt : String)
    (hwf : ctx.WF) (hnd : ctx.titles.Nodup)
    (hok : recommendE ctx q n = .ok l)
    (hms : matchStage ctx (pyLower (pyStrip q)) = .ok (some idx))
    (hrow : ctx.sim[idx]? = some row)
    (hself : row[idx]? = some selfS)
    (hmax : ∀ j, j < row.length → j ≠ idx → row.getD j 0 < selfS)
    (hmt : ctx.titles[idx]? = some mt) :
    ∀ r ∈ l, r.title ≠ mt := by
  rcases recommendE_ok_char ctx q n hwf with hch | ⟨idx2, row2, hms2, hrow2, hlen2, hch⟩
  · rw [hok] at hch
    simp only [Except.ok.injEq] at hch
    subst hch
    intro r hr
    exact absurd hr (List.not_mem_nil r)
  · rw [hms] at hms2
    simp only [Except.ok.injEq, Option.some.injEq] at hms2
    subst hms2
    rw [hrow] at hrow2
    simp only [Option.some.injEq] at hrow2
    subst hrow2
    rw [hok] at hch
    simp only [Except.ok.injEq] at hch
    subst hch
    intro r hr heq
    obtain ⟨p, hp, hs⟩ := List.mem_filterMap.mp hr
    have hpm : p ∈ enumF 0 row := taken_mem hp
    -- the self pair and its strict maximality among the enumerated pairs
    have hxmem : (idx, selfS) ∈ enumF 0 row := by
      have hx0 := enumF_mem_of 0 idx hself
      simpa using hx0
    have hmax2 : ∀ y ∈ enumF 0 row, y ≠ (idx, selfS) → y.2 < selfS := by
      intro y hy hne
      have hy2 := mem_enumF_zero hy
      by_cases hyi : y.1 = idx
      · exfalso
        rw [hyi, hself] at hy2
        exact hne (Prod.ext hyi (Option.some.inj hy2).symm)
      · have hylt := mem_enumF_lt hy
        have hm := hmax y.1 hylt hyi
        rw [List.getD_eq_getElem?_getD, hy2] at hm
        simpa using hm
    obtain ⟨t, hcp⟩ := sortDesc_eq_cons_of_max hxmem hmax2
    have hcp2 : candidatePairs row = (idx, selfS) :: t := hcp
    -- the kept pairs avoid the self pair, hence the matched position
    have hnodup : ((idx, selfS) :: t).Nodup := by
      rw [← hcp2]
      exact (sortDesc_perm (enumF 0 row)).nodup_iff.mpr (enumF_nodup 0 row)
    have hxt : (idx, selfS) ∉ t := (List.nodup_cons.mp hnodup).1
    have hpt : p ∈ t.take n := by
      rw [hcp2] at hp
      simpa using hp
    have hpne : p ≠ (idx, selfS) := by
      intro he
      rw [he] at hpt
      exact hxt (List.Sublist.mem hpt (List.take_sublist _ _))
    have hp1 : p.1 ≠ idx := by
      intro he
      apply hpne
      have hg := mem_enumF_zero hpm
      rw [he, hself] at hg
      exact Prod.ext he (Option.some.inj hg).symm
    -- pin down the result's title and refute equality with the matched one
    obtain ⟨ht, _⟩ := stepRec_some hs
    have hsame : ctx.titles[p.1]? = ctx.titles[idx]? := by
      rw [ht, hmt, heq]
    have hplt : p.1 < ctx.titles.length := by
      have hlt := mem_enumF_lt hpm
      rw [hlen2] at hlt
      exact hlt
    exact hp1 (List.getElem?_inj hplt hnd hsame)

/-- C1 (amended) witness at a concrete strict-maximum context. -/
theorem C1_self_excluded_witness :
    (⟨"Beta", "B. Author", none, 2⟩ : RecommendationResult).title ≠ "Alpha" :=
  C1_self_excluded_of_strict_max wCtx "Alpha" 5
    [⟨"Beta", "B. Author", none, 2⟩, ⟨"Gamma", "Unknown", none, 1⟩]
    0 [3, 2, 1] 3 "Alpha"
    (by decide) (by decide) (by rfl) (by rfl) (by rfl) (by rfl)
    (by decide) (by rfl)
    ⟨"Beta", "B. Author", none, 2⟩ (by simp)

end BookRec
